import Mathlib

/-!
Verification development for the Coral Island scraper (`script.py`).

Modelling conventions, used throughout:

* A Python `str` is modelled as its sequence of Unicode codepoints,
  `Str := List Nat`.  String literals are injected with `strOf`.
* `str.lower()` / `str.upper()` / `str.title()` are modelled by their
  ASCII case mappings (`pyLowerChar`, `pyUpperChar`), which is what they
  do on every character the scraper's vocabularies and pages use.
* The regex class `\s` is modelled by the six ASCII whitespace
  codepoints Python's `\s` always matches (9, 10, 11, 12, 13, 32).
* A Python `Set[str]` is represented canonically as a strictly sorted
  (hence duplicate-free) list of codepoint lists; `pySet` builds the
  canonical representative, `sunion` is set union.  Python's set
  iteration order is unspecified, so a canonical order is chosen once
  and used consistently.
* Exceptions are modelled with `Option`/`Except`: `none` where the
  Python code's `try` block raises.
-/

/-- Codepoint-sequence model of a Python `str`. -/
abbrev Str := List Nat

/-- Inject a Lean string literal as its codepoint sequence. -/
def strOf (s : String) : Str := s.toList.map Char.toNat

/-- ASCII model of `str.lower()` on one codepoint. -/
def pyLowerChar (n : Nat) : Nat := if 65 ≤ n ∧ n ≤ 90 then n + 32 else n

/-- ASCII model of `str.upper()` on one codepoint. -/
def pyUpperChar (n : Nat) : Nat := if 97 ≤ n ∧ n ≤ 122 then n - 32 else n

/-- Model of `str.lower()`. -/
def pyLower (s : Str) : Str := s.map pyLowerChar

/-- Model of `str.upper()`. -/
def pyUpper (s : Str) : Str := s.map pyUpperChar

/-- The codepoints the regex class `\s` matches in ASCII. -/
def isSpace (n : Nat) : Bool :=
  n = 9 || n = 10 || n = 11 || n = 12 || n = 13 || n = 32

/-- Replace every maximal run of whitespace by a single space (codepoint 32):
the effect of `re.sub(r"\s+", " ", s)`. -/
def collapseWS : Str → Str
  | [] => []
  | [c] => [if isSpace c then 32 else c]
  | c :: d :: cs =>
    if isSpace c && isSpace d then collapseWS (d :: cs)
    else (if isSpace c then 32 else c) :: collapseWS (d :: cs)

/-- Drop leading whitespace, as `str.strip()` does on the left. -/
def lstripWS (s : Str) : Str := s.dropWhile isSpace

/-- Drop trailing whitespace, as `str.strip()` does on the right. -/
def rstripWS : Str → Str
  | [] => []
  | c :: cs =>
    match rstripWS cs with
    | [] => if isSpace c then [] else [c]
    | d :: ds => c :: d :: ds

/-- Model of `str.strip()` (whitespace on both ends). -/
def pyStrip (s : Str) : Str := rstripWS (lstripWS s)

/-- Model of `text_norm` (script.py line 251): collapse whitespace runs to a
single space, then strip both ends. -/
def text_norm (s : Str) : Str := pyStrip (collapseWS s)

/-- Python's `in` on strings: `subIn needle hay` is `needle in hay`. -/
def subIn (needle : Str) : Str → Bool
  | [] => needle.isPrefixOf []
  | c :: cs => needle.isPrefixOf (c :: cs) || subIn needle cs

/-- Strict lexicographic codepoint order, Python's `<` on strings. -/
def strLt : Str → Str → Bool
  | [], [] => false
  | [], _ :: _ => true
  | _ :: _, [] => false
  | a :: as_, b :: bs => a < b || (a = b && strLt as_ bs)

/-- Insert into a strictly sorted list, skipping an element already present. -/
def sinsert (x : Str) : List Str → List Str
  | [] => [x]
  | y :: ys =>
    if x = y then y :: ys
    else if strLt x y then x :: y :: ys
    else y :: sinsert x ys

/-- Canonical representative of a Python set of strings: strictly sorted,
duplicate-free. -/
def pySet (l : List Str) : List Str := l.foldr sinsert []

/-- Set union (`|=` on Python sets), in canonical representation. -/
def sunion (a b : List Str) : List Str := pySet (a ++ b)

/-- Is the codepoint an ASCII letter or digit or underscore (regex `\w`)? -/
def isWordChar (n : Nat) : Bool :=
  (48 ≤ n && n ≤ 57) || (65 ≤ n && n ≤ 90) || (97 ≤ n && n ≤ 122) || n = 95

/-- Is the codepoint an ASCII letter (a cased character)? -/
def isAlphaChar (n : Nat) : Bool :=
  (65 ≤ n && n ≤ 90) || (97 ≤ n && n ≤ 122)

/-- Helper for `pyTitle`: the boolean says whether the previous character was
a cased letter. -/
def pyTitleAux : Bool → Str → Str
  | _, [] => []
  | prev, c :: cs =>
    (if prev then pyLowerChar c else pyUpperChar c) :: pyTitleAux (isAlphaChar c) cs

/-- ASCII model of `str.title()`: uppercase a letter that does not follow a
letter, lowercase the rest. -/
def pyTitle (s : Str) : Str := pyTitleAux false s

/-- `SEASON_WORDS` (script.py line 37). -/
def SEASON_WORDS : List Str :=
  [strOf ("spring"), strOf ("summer"), strOf ("fall"), strOf ("autumn"),
   strOf ("winter"), strOf ("all seasons"), strOf ("year round")]

/-- `WEATHER_WORDS` (script.py line 38). -/
def WEATHER_WORDS : List Str :=
  [strOf ("sunny"), strOf ("rainy"), strOf ("stormy"), strOf ("windy"),
   strOf ("snowy"), strOf ("cloudy")]

/-- The label a matched vocabulary word contributes in `find_by_labels`
(script.py lines 280-288): special cases, else `w.title()`. -/
def canonLabel (w : Str) : Str :=
  if w = strOf ("autumn") then strOf ("Fall")
  else if w = strOf ("all seasons") then strOf ("All Seasons")
  else if w = strOf ("year round") then strOf ("Year Round")
  else pyTitle w

/-- Model of `find_by_labels` (script.py lines 275-289): lowercase the text,
collect the canonical label of every vocabulary word contained in it. -/
def find_by_labels (text : Str) (dictionary : List Str) : List Str :=
  pySet ((dictionary.filter (fun w => subIn w (pyLower text))).map canonLabel)

/-- The canonical order list `canon` inside `set_join` (script.py line 259). -/
def canonList : List Str :=
  [strOf ("Spring"), strOf ("Summer"), strOf ("Fall"), strOf ("Winter"),
   strOf ("All Seasons"), strOf ("Year Round")]

/-- Lowercased forms of `canonList`, the set `{c.lower() for c in canon}`. -/
def canonLowers : List Str := canonList.map pyLower

/-- The value stored under lowercase key `k` by the Python dict comprehension
`{v.lower(): v for v in values}`: the last element of `values` (in iteration
order) whose lowercase form is `k`. -/
def classRep (values : List Str) (k : Str) : Option Str :=
  (values.filter (fun v => pyLower v = k)).getLast?

/-- Join a list of strings with the separator `"; "` (codepoints 59, 32). -/
def joinSemi : List Str → Str
  | [] => []
  | [x] => x
  | x :: y :: rest => x ++ 59 :: 32 :: joinSemi (y :: rest)

/-- Model of `set_join` (script.py lines 255-263).  `values` is the canonical
(sorted) enumeration of the Python set.  `ordered` keeps, for each canonical
season label present case-insensitively, the stored dict value, in canonical
order; `rest` sorts the remaining dict values; `sjPieces` is the
concatenation the `"; ".join` receives. -/
def sjPieces (values : List Str) : List Str :=
  canonList.filterMap (fun c => classRep values (pyLower c)) ++
    pySet (values.filter (fun v =>
      decide (pyLower v ∉ canonLowers) && (classRep values (pyLower v) == some v)))

def set_join (values : List Str) : Str :=
  if values = [] then [] else joinSemi (sjPieces values)

/-- Helper for `splitSemi`, accumulating the current piece reversed. -/
def splitSemiAux (acc : Str) : Str → List Str
  | [] => [acc.reverse]
  | [c] => [(c :: acc).reverse]
  | c :: d :: rest =>
    if c = 59 ∧ d = 32 then acc.reverse :: splitSemiAux [] rest
    else splitSemiAux (c :: acc) (d :: rest)

/-- Model of `s.split("; ")`. -/
def splitSemi (s : Str) : List Str := splitSemiAux [] s

/-- Model of `set(x.split("; ")) if x else set()` as used by the merge steps
(script.py lines 727-730, 820-823, 948-951). -/
def splitField (s : Str) : List Str := if s = [] then [] else pySet (splitSemi s)

/-- The alternatives of the noise regex in `parse_detail_page`
(script.py line 317), in the pattern's order. -/
def noiseAlts : List Str :=
  [strOf ("Coral Guide"), strOf ("Journal"), strOf ("Crafting"),
   strOf ("NPCs"), strOf ("Locations"), strOf ("Item database")]

/-- Length of the noise-phrase match starting at the head of `s`, or 0.
`prev` says whether the previous character was a word character (the `\b`
on the left); the `\b` on the right requires a non-word character or the
end after the phrase.  Matching is case-insensitive, alternatives are
tried in the pattern's order. -/
def noiseLenAt (prev : Bool) (s : Str) : Nat :=
  if prev then 0
  else
    match noiseAlts.find? (fun ph =>
      pyLower (s.take ph.length) == pyLower ph &&
      (match (s.drop ph.length).head? with
       | none => true
       | some d => !isWordChar d)) with
    | some ph => ph.length
    | none => 0

/-- Scanner for `re.sub(r"\b(...)\b", " ", text, flags=re.I)`: left to
right, replacing each non-overlapping match by one space.  The fuel (first
argument) only makes the recursion structural; every match consumes at
least one character, so `s.length` fuel is always enough. -/
def stripNoiseGo : Nat → Bool → Str → Str
  | 0, _, s => s
  | _ + 1, _, [] => []
  | fuel + 1, prev, c :: cs =>
    let n := noiseLenAt prev (c :: cs)
    if 0 < n then 32 :: stripNoiseGo fuel false ((c :: cs).drop n)
    else c :: stripNoiseGo fuel (isWordChar c) cs

/-- The noise stripping applied to the fulltext tier (script.py line 317). -/
def stripNoise (s : Str) : Str := stripNoiseGo s.length false s

/-- A fetched detail page, reduced to the text regions `parse_detail_page`
reads: the texts of the Strategy-1 containers (`table, .infobox, .item-info,
.details`), the texts of the Strategy-2 groups (`.icons, .icon-list, .tags,
.badges, .chips`), and the text of the Strategy-3 main content region. -/
structure DetailPage where
  tableTexts : List Str
  badgeTexts : List Str
  fulltext : Str

/-- One `seasons |= ...; weather |= ...` step of `parse_detail_page` over the
text of one selected node. -/
def accumLabels (acc : List Str × List Str) (text : Str) : List Str × List Str :=
  (sunion acc.1 (find_by_labels text SEASON_WORDS),
   sunion acc.2 (find_by_labels text WEATHER_WORDS))

/-- The `(seasons, weather)` accumulated by Strategies 1 and 2 of
`parse_detail_page` (script.py lines 300-310). -/
def tiers12 (page : DetailPage) : List Str × List Str :=
  (page.badgeTexts.foldl accumLabels (page.tableTexts.foldl accumLabels ([], [])))

/-- Model of `parse_detail_page` (script.py lines 292-321).  The argument is
the outcome of the fetch: `none` when `browser.soup`/`get_soup` raises (the
`except` branch), `some page` on success. -/
def parse_detail_page (fetch : Option DetailPage) : List Str × List Str :=
  match fetch with
  | none => ([], [])
  | some page =>
    let sw := page.badgeTexts.foldl accumLabels
      (page.tableTexts.foldl accumLabels ([], []))
    if sw.1 = [] ∨ sw.2 = [] then
      let t := stripNoise page.fulltext
      (sunion sw.1 (find_by_labels t SEASON_WORDS),
       sunion sw.2 (find_by_labels t WEATHER_WORDS))
    else sw

/-- The dataclass `ItemRow` (script.py lines 56-63).  `category` defaults to
the empty string when a constructor call omits it. -/
structure ItemRow where
  image : Str
  name : Str
  seasons : Str
  weather : Str
  source_page : Str
  category : Str := []
deriving DecidableEq, Repr

/-- Python `x or y` on strings: `y` when `x` is empty, else `x`. -/
def pyOr (x y : Str) : Str := if x = [] then y else x

/-- The merge of the global de-duplication in `scrape_ptbr`
(script.py lines 726-733): union the split season/weather sets, keep the
first non-empty image and category, first-seen name and source page. -/
def mergeRow_ptbr (prev r : ItemRow) : ItemRow :=
  { image := pyOr prev.image r.image
    name := prev.name
    seasons := set_join (sunion (splitField prev.seasons) (splitField r.seasons))
    weather := set_join (sunion (splitField prev.weather) (splitField r.weather))
    source_page := prev.source_page
    category := pyOr prev.category r.category }

/-- The merge of the global de-duplication in `scrape_all`
(script.py lines 818-825).  The `ItemRow(...)` call there passes no
`category`, so the merged row gets the dataclass default `""`. -/
def mergeRow_all (prev r : ItemRow) : ItemRow :=
  { image := pyOr prev.image r.image
    name := prev.name
    seasons := set_join (sunion (splitField prev.seasons) (splitField r.seasons))
    weather := set_join (sunion (splitField prev.weather) (splitField r.weather))
    source_page := prev.source_page }

/-- The merge of the de-duplication in `scrape_fandom`
(script.py lines 947-959); like `scrape_all`, the constructor call omits
`category`. -/
def mergeRow_fandom (prev r : ItemRow) : ItemRow :=
  { image := pyOr prev.image r.image
    name := prev.name
    seasons := set_join (sunion (splitField prev.seasons) (splitField r.seasons))
    weather := set_join (sunion (splitField prev.weather) (splitField r.weather))
    source_page := prev.source_page }

/-- One step of the `by_name` dict: bind `k` to `r` if absent, else merge
`r` into the stored row, keeping the dict's insertion order. -/
def byNameStep (merge : ItemRow → ItemRow → ItemRow) :
    List (Str × ItemRow) → Str → ItemRow → List (Str × ItemRow)
  | [], k, r => [(k, r)]
  | (k0, p) :: rest, k, r =>
    if k0 = k then (k0, merge p r) :: rest
    else (k0, p) :: byNameStep merge rest k r

/-- The accumulated `by_name` dict after folding all rows. -/
def byNameFold (merge : ItemRow → ItemRow → ItemRow) (rows : List ItemRow) :
    List (Str × ItemRow) :=
  rows.foldl (fun acc r => byNameStep merge acc (pyLower r.name) r) []

/-- The global de-duplication loop pattern
`for r in all_rows: ... list(by_name.values())` shared by the three
pipelines (script.py lines 719-733, 811-826, 941-960). -/
def dedupByName (merge : ItemRow → ItemRow → ItemRow) (rows : List ItemRow) :
    List ItemRow :=
  (byNameFold merge rows).map Prod.snd

/-- The category order list of `scrape_ptbr` (script.py lines 736-748). -/
def orderCats : List Str :=
  [strOf ("crops"), strOf ("animal products"), strOf ("artisan products"),
   strOf ("ocean"), strOf ("peixes"), strOf ("insetos"),
   strOf ("animais marinhos"), strOf ("artefatos"), strOf ("gemas"),
   strOf ("fossil"), strOf ("coletaveis")]

/-- `order_index.get(r.category, 999)` (script.py lines 749-751). -/
def orderIndex (c : Str) : Nat := (orderCats.indexOf? c).getD 999

/-- Strict order on the sort key `(order_index, name.lower())` of
`scrape_ptbr`'s final sort. -/
def ptbrKeyLt (a b : ItemRow) : Bool :=
  orderIndex a.category < orderIndex b.category ||
    (orderIndex a.category = orderIndex b.category &&
      strLt (pyLower a.name) (pyLower b.name))

/-- Stable insertion placing `x` after every element not strictly above it. -/
def insStable (x : ItemRow) : List ItemRow → List ItemRow
  | [] => [x]
  | y :: ys => if ptbrKeyLt x y then x :: y :: ys else y :: insStable x ys

/-- Model of `result.sort(key=...)` in `scrape_ptbr` (script.py line 751):
a stable sort by the key order `ptbrKeyLt`. -/
def ptbrSort (l : List ItemRow) : List ItemRow :=
  l.foldl (fun acc x => insStable x acc) []

/-- The pure tail of `scrape_all` (script.py lines 811-826): global
de-duplication of the accumulated rows. -/
def scrape_all_dedup (rows : List ItemRow) : List ItemRow :=
  dedupByName mergeRow_all rows

/-- The pure tail of `scrape_fandom` (script.py lines 941-960). -/
def scrape_fandom_dedup (rows : List ItemRow) : List ItemRow :=
  dedupByName mergeRow_fandom rows

/-- The pure tail of `scrape_ptbr` (script.py lines 719-752): global
de-duplication followed by the category/name sort. -/
def scrape_ptbr_post (rows : List ItemRow) : List ItemRow :=
  ptbrSort (dedupByName mergeRow_ptbr rows)

/-- One attempt of the fetcher inside `get_soup`: a page id on HTTP 200, an
error id otherwise (a non-200 status and a raised exception both only set
`last_exc`). -/
def FetchAttempt := Nat → Except Nat Nat

/-- The retry loop of `get_soup` (script.py lines 66-78), from attempt `i`
with `last` the recorded `last_exc`.  Returns the result (`Except` the final
`raise last_exc`, where `none` models `last_exc = None`) together with the
list of `time.sleep` delays performed, in order.  A failed attempt always
sleeps `backoff * (i + 1)`, a successful one returns at once. -/
def get_soupGo (fetcher : FetchAttempt) (retries : Nat) (backoff : ℚ)
    (i : Nat) (last : Option Nat) : Except (Option Nat) Nat × List ℚ :=
  if i < retries then
    match fetcher i with
    | .ok v => (.ok v, [])
    | .error e =>
      let rec_ := get_soupGo fetcher retries backoff (i + 1) (some e)
      (rec_.1, backoff * (i + 1) :: rec_.2)
  else (.error last, [])
termination_by retries - i

/-- Model of `get_soup` (script.py lines 66-78) run against `fetcher`. -/
def get_soup (fetcher : FetchAttempt) (retries : Nat) (backoff : ℚ) :
    Except (Option Nat) Nat × List ℚ :=
  get_soupGo fetcher retries backoff 0 none

theorem length_dropWhile_le (p : Nat → Bool) (l : Str) :
    (l.dropWhile p).length ≤ l.length := by
  induction l with
  | nil => simp
  | cons c cs ih =>
    by_cases h : p c = true
    · rw [List.dropWhile_cons, if_pos h]
      simp only [List.length_cons]
      omega
    · simp [List.dropWhile_cons, h]

/-- Specification-side view of a string: its maximal whitespace-free runs. -/
def wordsOf : Str → List Str
  | [] => []
  | c :: cs =>
    if isSpace c then wordsOf cs
    else (c :: cs.takeWhile (fun d => !isSpace d)) ::
      wordsOf (cs.dropWhile (fun d => !isSpace d))
termination_by s => s.length
decreasing_by
  · simp
  · simp only [List.length_cons]
    exact Nat.lt_succ_of_le (length_dropWhile_le _ _)

/-- Join words with a single space. -/
def joinSp : List Str → Str
  | [] => []
  | [w] => w
  | w :: v :: rest => w ++ 32 :: joinSp (v :: rest)

/-- Does the string consist of whitespace only? -/
def allSpace (s : Str) : Bool := s.all isSpace

theorem isSpace_32 : isSpace 32 = true := rfl

theorem collapseWS_cons_nonspace (c : Nat) (cs : Str) (h : isSpace c = false) :
    collapseWS (c :: cs) = c :: collapseWS cs := by
  cases cs with
  | nil => simp [collapseWS, h]
  | cons d ds => simp [collapseWS, h]

theorem lstripWS_cons_nonspace (c : Nat) (cs : Str) (h : isSpace c = false) :
    lstripWS (c :: cs) = c :: cs := by
  simp [lstripWS, List.dropWhile_cons, h]

theorem rstripWS_cons_of_ne_nil (c : Nat) (cs : Str) (h : rstripWS cs ≠ []) :
    rstripWS (c :: cs) = c :: rstripWS cs := by
  simp only [rstripWS]
  cases hr : rstripWS cs with
  | nil => exact absurd hr h
  | cons d ds => rfl

theorem rstripWS_cons_nonspace_ne_nil (c : Nat) (cs : Str) (h : isSpace c = false) :
    rstripWS (c :: cs) ≠ [] := by
  simp only [rstripWS]
  cases hr : rstripWS cs with
  | nil => simp [h]
  | cons d ds => simp

theorem collapseWS_allSpace (s : Str) (hne : s ≠ []) (h : allSpace s = true) :
    collapseWS s = [32] := by
  induction s with
  | nil => exact absurd rfl hne
  | cons c cs ih =>
    cases cs with
    | nil =>
      simp [allSpace] at h
      simp [collapseWS, h]
    | cons d ds =>
      simp [allSpace] at h ih
      obtain ⟨hc, hd, hds⟩ := h
      simp [collapseWS, hc, hd, ih hd hds]

theorem rstripWS_allSpace (s : Str) (h : allSpace s = true) :
    rstripWS s = [] := by
  induction s with
  | nil => rfl
  | cons c cs ih =>
    simp [allSpace] at h ih
    simp [rstripWS, ih h.2, h.1]

theorem wordsOf_allSpace (s : Str) (h : allSpace s = true) :
    wordsOf s = [] := by
  induction s with
  | nil => simp [wordsOf]
  | cons c cs ih =>
    simp [allSpace] at h ih
    simp [wordsOf, h.1, ih h.2]

theorem wordsOf_eq_nil_allSpace (s : Str) (h : wordsOf s = []) :
    allSpace s = true := by
  induction s with
  | nil => rfl
  | cons c cs ih =>
    by_cases hc : isSpace c = true
    · rw [wordsOf, if_pos hc] at h
      simp [allSpace, hc]
      simpa [allSpace] using ih h
    · rw [wordsOf, if_neg (by simp [hc])] at h
      simp at h

theorem text_norm_space_cons (c : Nat) (cs : Str) (h : isSpace c = true) :
    text_norm (c :: cs) = text_norm cs := by
  cases cs with
  | nil =>
    simp [text_norm, collapseWS, h, pyStrip, lstripWS, rstripWS, List.dropWhile]
  | cons d ds =>
    by_cases hd : isSpace d = true
    · simp [text_norm, collapseWS, h, hd]
    · simp only [Bool.not_eq_true] at hd
      have h1 : collapseWS (c :: d :: ds) = 32 :: collapseWS (d :: ds) := by
        simp [collapseWS, h, hd]
      have h2 : collapseWS (d :: ds) = d :: collapseWS ds :=
        collapseWS_cons_nonspace d ds hd
      simp [text_norm, h1, h2, pyStrip, lstripWS, List.dropWhile, hd, isSpace_32]

theorem collapseWS_space_cons :
    ∀ (cs : Str) (c : Nat), isSpace c = true → allSpace (c :: cs) = false →
      collapseWS (c :: cs) = 32 :: collapseWS (lstripWS (c :: cs)) := by
  intro cs
  induction cs with
  | nil => intro c hc hna; simp [allSpace, hc] at hna
  | cons d ds ih =>
    intro c hc hna
    by_cases hd : isSpace d = true
    · have hna2 : allSpace (d :: ds) = false := by
        simp [allSpace, hc] at hna
        simp [allSpace, hd]
        exact hna hd
      have step : collapseWS (c :: d :: ds) = collapseWS (d :: ds) := by
        simp [collapseWS, hc, hd]
      have lstep : lstripWS (c :: d :: ds) = lstripWS (d :: ds) := by
        simp [lstripWS, List.dropWhile_cons, hc]
      rw [step, lstep]
      exact ih d hd hna2
    · simp only [Bool.not_eq_true] at hd
      have lstep : lstripWS (c :: d :: ds) = d :: ds := by
        simp [lstripWS, List.dropWhile_cons, hc, hd]
      rw [lstep]
      simp [collapseWS, hc, hd]

theorem lstripWS_not_allSpace (s : Str) (h : allSpace s = false) :
    ∃ e es, lstripWS s = e :: es ∧ isSpace e = false := by
  induction s with
  | nil => simp [allSpace] at h
  | cons c cs ih =>
    by_cases hc : isSpace c = true
    · have h2 : allSpace cs = false := by
        simp [allSpace, hc] at h
        simpa [allSpace] using h
      obtain ⟨e, es, h1, h2⟩ := ih h2
      exact ⟨e, es, by simp [lstripWS, List.dropWhile_cons, hc] at h1 ⊢; exact h1, h2⟩
    · simp only [Bool.not_eq_true] at hc
      exact ⟨c, cs, lstripWS_cons_nonspace c cs hc, hc⟩

theorem wordsOf_lstripWS (s : Str) : wordsOf (lstripWS s) = wordsOf s := by
  induction s with
  | nil => simp [lstripWS]
  | cons c cs ih =>
    by_cases hc : isSpace c = true
    · have h1 : lstripWS (c :: cs) = lstripWS cs := by
        simp [lstripWS, List.dropWhile_cons, hc]
      rw [h1, ih, wordsOf, if_pos hc]
    · simp only [Bool.not_eq_true] at hc
      rw [lstripWS_cons_nonspace c cs hc]

theorem joinSp_cons_cons (c : Nat) (w : Str) (W : List Str) :
    joinSp ((c :: w) :: W) = c :: joinSp (w :: W) := by
  cases W with
  | nil => rfl
  | cons v Ws => simp [joinSp]

theorem wordsOf_ne_nil (s : Str) (h : allSpace s = false) : wordsOf s ≠ [] := by
  intro hw
  rw [wordsOf_eq_nil_allSpace s hw] at h
  simp at h

/-- The effect of `text_norm` (claim C9's first half): the normalized text is
the whitespace-free runs of the input joined by single spaces — every
whitespace run collapsed to one space, both ends trimmed. -/
theorem text_norm_eq_joinSp_wordsOf (s : Str) :
    text_norm s = joinSp (wordsOf s) := by
  have key : ∀ (n : Nat) (s : Str), s.length = n →
      text_norm s = joinSp (wordsOf s) := by
    intro n
    induction n using Nat.strong_induction_on with
    | _ n IH =>
      intro s hs
      cases s with
      | nil => simp [text_norm, collapseWS, pyStrip, lstripWS, rstripWS, wordsOf, joinSp]
      | cons c cs =>
        by_cases hc : isSpace c = true
        · rw [text_norm_space_cons c cs hc, wordsOf, if_pos hc]
          exact IH cs.length (by simp at hs; omega) cs rfl
        · simp only [Bool.not_eq_true] at hc
          cases cs with
          | nil =>
            simp [text_norm, collapseWS, hc, pyStrip, lstripWS, List.dropWhile,
              rstripWS, wordsOf, joinSp]
          | cons d ds =>
            by_cases hd : isSpace d = true
            · by_cases hall : allSpace (d :: ds) = true
              · have e2 : collapseWS (d :: ds) = [32] :=
                  collapseWS_allSpace _ (by simp) hall
                have lhs : text_norm (c :: d :: ds) = [c] := by
                  rw [text_norm, collapseWS_cons_nonspace c _ hc, e2, pyStrip,
                    lstripWS_cons_nonspace c _ hc]
                  simp [rstripWS, isSpace_32, hc]
                have rhs : wordsOf (c :: d :: ds) = [[c]] := by
                  rw [wordsOf, if_neg (by simp [hc])]
                  simp [List.takeWhile_cons, List.dropWhile_cons, hd,
                    wordsOf_allSpace _ hall]
                rw [lhs, rhs]
                rfl
              · obtain ⟨e, es, hu, he⟩ := lstripWS_not_allSpace (d :: ds) (by simpa using hall)
                have e2 : collapseWS (d :: ds) = 32 :: collapseWS (lstripWS (d :: ds)) :=
                  collapseWS_space_cons ds d hd (by simpa using hall)
                have hcu : collapseWS (lstripWS (d :: ds)) = e :: collapseWS es := by
                  rw [hu, collapseWS_cons_nonspace e es he]
                have hrne : rstripWS (collapseWS (lstripWS (d :: ds))) ≠ [] := by
                  rw [hcu]
                  exact rstripWS_cons_nonspace_ne_nil e _ he
                have lhs : text_norm (c :: d :: ds) =
                    c :: 32 :: text_norm (lstripWS (d :: ds)) := by
                  rw [text_norm, collapseWS_cons_nonspace c _ hc, e2, pyStrip,
                    lstripWS_cons_nonspace c _ hc,
                    rstripWS_cons_of_ne_nil c _ (by
                      rw [rstripWS_cons_of_ne_nil 32 _ hrne]
                      simp),
                    rstripWS_cons_of_ne_nil 32 _ hrne]
                  have : text_norm (lstripWS (d :: ds)) =
                      rstripWS (collapseWS (lstripWS (d :: ds))) := by
                    rw [text_norm, pyStrip, hcu, lstripWS_cons_nonspace e _ he]
                  rw [this]
                have hlen : (lstripWS (d :: ds)).length < n := by
                  have h1 : lstripWS (d :: ds) = lstripWS ds := by
                    simp [lstripWS, List.dropWhile_cons, hd]
                  have h2 := length_dropWhile_le isSpace ds
                  simp only [List.length_cons] at hs
                  rw [h1]
                  simp only [lstripWS]
                  omega
                have ihu := IH (lstripWS (d :: ds)).length hlen (lstripWS (d :: ds)) rfl
                have rhs : wordsOf (c :: d :: ds) = [c] :: wordsOf (d :: ds) := by
                  rw [wordsOf, if_neg (by simp [hc])]
                  simp [List.takeWhile_cons, List.dropWhile_cons, hd]
                rw [lhs, ihu, wordsOf_lstripWS, rhs]
                obtain ⟨w, W, hw⟩ : ∃ w W, wordsOf (d :: ds) = w :: W := by
                  cases hwd : wordsOf (d :: ds) with
                  | nil => exact absurd hwd (wordsOf_ne_nil _ (by simpa using hall))
                  | cons w W => exact ⟨w, W, rfl⟩
                rw [hw]
                simp [joinSp]
            · simp only [Bool.not_eq_true] at hd
              have e2 : collapseWS (d :: ds) = d :: collapseWS ds :=
                collapseWS_cons_nonspace d ds hd
              have hrne : rstripWS (collapseWS (d :: ds)) ≠ [] := by
                rw [e2]
                exact rstripWS_cons_nonspace_ne_nil d _ hd
              have lhs : text_norm (c :: d :: ds) = c :: text_norm (d :: ds) := by
                rw [text_norm, collapseWS_cons_nonspace c _ hc, pyStrip,
                  lstripWS_cons_nonspace c _ hc,
                  rstripWS_cons_of_ne_nil c _ hrne]
                have : text_norm (d :: ds) = rstripWS (collapseWS (d :: ds)) := by
                  rw [text_norm, pyStrip, e2, lstripWS_cons_nonspace d _ hd]
                rw [this]
              have rhs : wordsOf (c :: d :: ds) =
                  (c :: d :: ds.takeWhile (fun x => !isSpace x)) ::
                    wordsOf (ds.dropWhile (fun x => !isSpace x)) := by
                rw [wordsOf, if_neg (by simp [hc])]
                simp [List.takeWhile_cons, List.dropWhile_cons, hd]
              have rhs2 : wordsOf (d :: ds) =
                  (d :: ds.takeWhile (fun x => !isSpace x)) ::
                    wordsOf (ds.dropWhile (fun x => !isSpace x)) := by
                rw [wordsOf, if_neg (by simp [hd])]
              rw [lhs, rhs, joinSp_cons_cons, ← rhs2]
              exact congrArg (c :: ·) (IH (d :: ds).length (by simp at hs ⊢; omega) (d :: ds) rfl)
  exact key s.length s rfl

theorem takeWhile_append_stop (p : Nat → Bool) (l : Str) (y : Nat) (r : Str)
    (hl : ∀ x ∈ l, p x = true) (hy : p y = false) :
    (l ++ y :: r).takeWhile p = l ∧ (l ++ y :: r).dropWhile p = y :: r := by
  induction l with
  | nil => simp [List.takeWhile_cons, List.dropWhile_cons, hy]
  | cons c cs ih =>
    have hc : p c = true := hl c (by simp)
    have ihr := ih (fun x hx => hl x (by simp [hx]))
    simp [List.takeWhile_cons, List.dropWhile_cons, hc, ihr.1, ihr.2]

theorem wordsOf_wellformed (s : Str) :
    ∀ w ∈ wordsOf s, w ≠ [] ∧ ∀ x ∈ w, isSpace x = false := by
  have key : ∀ (n : Nat) (s : Str), s.length = n →
      ∀ w ∈ wordsOf s, w ≠ [] ∧ ∀ x ∈ w, isSpace x = false := by
    intro n
    induction n using Nat.strong_induction_on with
    | _ n IH =>
      intro s hs
      cases s with
      | nil => simp [wordsOf]
      | cons c cs =>
        by_cases hc : isSpace c = true
        · rw [wordsOf, if_pos hc]
          exact IH cs.length (by simp at hs; omega) cs rfl
        · rw [wordsOf, if_neg (by simp at hc; simp [hc])]
          intro w hw
          rcases List.mem_cons.mp hw with hw | hw
          · subst hw
            refine ⟨by simp, ?_⟩
            intro x hx
            rcases List.mem_cons.mp hx with hx | hx
            · subst hx; simpa using hc
            · have := List.mem_takeWhile_imp hx
              simpa using this
          · have hlen : (cs.dropWhile (fun d => !isSpace d)).length < n := by
              have := length_dropWhile_le (fun d => !isSpace d) cs
              simp only [List.length_cons] at hs
              omega
            exact IH _ hlen _ rfl w hw
  exact key s.length s rfl

theorem wordsOf_joinSp (W : List Str)
    (h : ∀ w ∈ W, w ≠ [] ∧ ∀ x ∈ w, isSpace x = false) :
    wordsOf (joinSp W) = W := by
  induction W with
  | nil => simp [joinSp, wordsOf]
  | cons w V ih =>
    obtain ⟨hne, hwf⟩ := h w (by simp)
    cases w with
    | nil => exact absurd rfl hne
    | cons c w1 =>
      have hc : isSpace c = false := hwf c (by simp)
      have hw1 : ∀ x ∈ w1, (fun d => !isSpace d) x = true := by
        intro x hx
        simp [hwf x (by simp [hx])]
      cases V with
      | nil =>
        rw [joinSp, wordsOf, if_neg (by simp [hc])]
        rw [List.takeWhile_eq_self_iff.mpr hw1,
          List.dropWhile_eq_nil_iff.mpr (by intro x hx; simp [hwf x (by simp [hx])])]
        simp [wordsOf]
      | cons v U =>
        have hjoin : joinSp ((c :: w1) :: v :: U) = c :: (w1 ++ 32 :: joinSp (v :: U)) := by
          simp [joinSp]
        rw [hjoin, wordsOf, if_neg (by simp [hc])]
        have hsplit := takeWhile_append_stop (fun d => !isSpace d) w1 32
          (joinSp (v :: U)) hw1 (by simp [isSpace_32])
        rw [hsplit.1, hsplit.2]
        have : wordsOf (32 :: joinSp (v :: U)) = wordsOf (joinSp (v :: U)) := by
          rw [wordsOf, if_pos isSpace_32]
        rw [this, ih (fun u hu => h u (by simp [hu]))]

/-- Idempotence of `text_norm` (claim C9's second half). -/
theorem text_norm_idem (s : Str) : text_norm (text_norm s) = text_norm s := by
  rw [text_norm_eq_joinSp_wordsOf s, text_norm_eq_joinSp_wordsOf (joinSp (wordsOf s)),
    wordsOf_joinSp (wordsOf s) (wordsOf_wellformed s)]

theorem pyLowerChar_pyUpperChar (n : Nat) :
    pyLowerChar (pyUpperChar n) = pyLowerChar n := by
  unfold pyLowerChar pyUpperChar
  split_ifs <;> omega

theorem isSpace_pyUpperChar (n : Nat) : isSpace (pyUpperChar n) = isSpace n := by
  rw [Bool.eq_iff_iff]
  unfold pyUpperChar
  split_ifs with h
  · simp only [isSpace, Bool.or_eq_true, decide_eq_true_eq]
    omega
  · exact Iff.rfl

theorem pyUpperChar_32 : pyUpperChar 32 = 32 := rfl

theorem collapseWS_map (f : Nat → Nat) (hf : ∀ c, isSpace (f c) = isSpace c)
    (hf32 : f 32 = 32) (s : Str) :
    collapseWS (s.map f) = (collapseWS s).map f := by
  induction s with
  | nil => rfl
  | cons c cs ih =>
    cases cs with
    | nil =>
      by_cases hc : isSpace c = true
      · simp [collapseWS, hf, hc, hf32]
      · simp at hc
        simp [collapseWS, hf, hc]
    | cons d ds =>
      by_cases hc : isSpace c = true <;> by_cases hd : isSpace d = true <;>
        simp_all [collapseWS, hf, hf32]

theorem lstripWS_map (f : Nat → Nat) (hf : ∀ c, isSpace (f c) = isSpace c)
    (s : Str) : lstripWS (s.map f) = (lstripWS s).map f := by
  induction s with
  | nil => rfl
  | cons c cs ih =>
    by_cases hc : isSpace c = true
    · simp [lstripWS, List.dropWhile_cons, hf, hc] at ih ⊢
      exact ih
    · simp at hc
      simp [lstripWS, List.dropWhile_cons, hf, hc]

theorem rstripWS_map (f : Nat → Nat) (hf : ∀ c, isSpace (f c) = isSpace c)
    (s : Str) : rstripWS (s.map f) = (rstripWS s).map f := by
  induction s with
  | nil => rfl
  | cons c cs ih =>
    simp only [List.map_cons, rstripWS, ih]
    cases hr : rstripWS cs with
    | nil => by_cases hc : isSpace c = true <;> simp [hf, hc]
    | cons d ds => simp

theorem text_norm_map (f : Nat → Nat) (hf : ∀ c, isSpace (f c) = isSpace c)
    (hf32 : f 32 = 32) (s : Str) :
    text_norm (s.map f) = (text_norm s).map f := by
  unfold text_norm pyStrip
  rw [collapseWS_map f hf hf32, lstripWS_map f hf, rstripWS_map f hf]

theorem pyLower_pyUpper_text_norm (s : Str) :
    pyLower (text_norm (pyUpper s)) = pyLower (text_norm s) := by
  unfold pyUpper
  rw [text_norm_map pyUpperChar isSpace_pyUpperChar pyUpperChar_32]
  unfold pyLower
  rw [List.map_map]
  exact List.map_congr_left (fun x _ => pyLowerChar_pyUpperChar x)

theorem find_by_labels_congr (t1 t2 : Str) (d : List Str)
    (h : pyLower t1 = pyLower t2) :
    find_by_labels t1 d = find_by_labels t2 d := by
  unfold find_by_labels
  rw [h]

theorem strLt_irrefl (s : Str) : strLt s s = false := by
  induction s with
  | nil => rfl
  | cons c cs ih => simp [strLt, ih]

theorem strLt_trans :
    ∀ (a b c : Str), strLt a b = true → strLt b c = true → strLt a c = true := by
  intro a
  induction a with
  | nil =>
    intro b c hab hbc
    cases b with
    | nil => simp [strLt] at hab
    | cons y ys =>
      cases c with
      | nil => simp [strLt] at hbc
      | cons z zs => simp [strLt]
  | cons x xs ih =>
    intro b c hab hbc
    cases b with
    | nil => simp [strLt] at hab
    | cons y ys =>
      cases c with
      | nil => simp [strLt] at hbc
      | cons z zs =>
        simp [strLt] at hab hbc ⊢
        rcases hab with hab | ⟨hxy, hab⟩
        · rcases hbc with hbc | ⟨hyz, hbc⟩
          · exact Or.inl (by omega)
          · subst hyz
            exact Or.inl hab
        · subst hxy
          rcases hbc with hbc | ⟨hyz, hbc⟩
          · exact Or.inl hbc
          · subst hyz
            exact Or.inr ⟨rfl, ih ys zs hab hbc⟩

theorem strLt_total :
    ∀ (a b : Str), a = b ∨ strLt a b = true ∨ strLt b a = true := by
  intro a
  induction a with
  | nil =>
    intro b
    cases b with
    | nil => exact Or.inl rfl
    | cons y ys => exact Or.inr (Or.inl (by simp [strLt]))
  | cons x xs ih =>
    intro b
    cases b with
    | nil => exact Or.inr (Or.inr (by simp [strLt]))
    | cons y ys =>
      rcases Nat.lt_trichotomy x y with h | h | h
      · exact Or.inr (Or.inl (by simp [strLt, h]))
      · subst h
        rcases ih ys with h | h | h
        · exact Or.inl (by rw [h])
        · exact Or.inr (Or.inl (by simp [strLt, h]))
        · exact Or.inr (Or.inr (by simp [strLt, h]))
      · exact Or.inr (Or.inr (by simp [strLt, h]))

theorem strLt_ne (a b : Str) (h : strLt a b = true) : a ≠ b := by
  intro he
  subst he
  rw [strLt_irrefl a] at h
  exact Bool.false_ne_true h

theorem strLt_asymm (a b : Str) (h : strLt a b = true) : strLt b a = false := by
  cases hba : strLt b a with
  | false => rfl
  | true => exact absurd rfl (strLt_ne a a (strLt_trans a b a h hba))

/-- Sorted, strictly increasing list: the canonical Python-set shape. -/
def SSorted (l : List Str) : Prop := l.Pairwise (fun x y => strLt x y = true)

theorem mem_sinsert (x0 x : Str) (l : List Str) :
    x0 ∈ sinsert x l ↔ x0 = x ∨ x0 ∈ l := by
  induction l with
  | nil => simp [sinsert]
  | cons y ys ih =>
    simp only [sinsert]
    split_ifs with h1 h2
    · subst h1
      simp only [List.mem_cons]
      constructor
      · intro h; exact Or.inr h
      · rintro (h | h)
        · exact Or.inl h
        · exact h
    · simp [List.mem_cons]
    · simp only [List.mem_cons, ih]
      tauto

theorem ssorted_sinsert (x : Str) (l : List Str) (h : SSorted l) :
    SSorted (sinsert x l) := by
  induction l with
  | nil => simp [sinsert, SSorted]
  | cons y ys ih =>
    rcases List.pairwise_cons.mp h with ⟨hy, hys⟩
    simp only [sinsert]
    split_ifs with h1 h2
    · exact h
    · refine List.pairwise_cons.mpr ⟨?_, h⟩
      intro z hz
      rcases List.mem_cons.mp hz with hz | hz
      · subst hz; exact h2
      · exact strLt_trans x y z h2 (hy z hz)
    · refine List.pairwise_cons.mpr ⟨?_, ih hys⟩
      intro z hz
      rcases (mem_sinsert z x ys).mp hz with hz | hz
      · subst hz
        rcases strLt_total z y with he | hlt | hgt
        · exact absurd he h1
        · exact absurd hlt h2
        · exact hgt
      · exact hy z hz

theorem pySet_cons (x : Str) (l : List Str) :
    pySet (x :: l) = sinsert x (pySet l) := rfl

theorem ssorted_pySet (l : List Str) : SSorted (pySet l) := by
  induction l with
  | nil => simp [pySet, SSorted]
  | cons x xs ih => exact ssorted_sinsert x (pySet xs) ih

theorem mem_pySet (x : Str) (l : List Str) : x ∈ pySet l ↔ x ∈ l := by
  induction l with
  | nil => simp [pySet]
  | cons y ys ih =>
    rw [pySet_cons, mem_sinsert]
    simp [ih]

theorem ssorted_unique :
    ∀ (l1 l2 : List Str), SSorted l1 → SSorted l2 →
      (∀ x, x ∈ l1 ↔ x ∈ l2) → l1 = l2 := by
  intro l1
  induction l1 with
  | nil =>
    intro l2 _ _ hm
    cases l2 with
    | nil => rfl
    | cons y ys => exact absurd ((hm y).mpr (by simp)) (by simp)
  | cons x xs ih =>
    intro l2 h1 h2 hm
    cases l2 with
    | nil => exact absurd ((hm x).mp (by simp)) (by simp)
    | cons y ys =>
      rcases List.pairwise_cons.mp h1 with ⟨hx1, hxs⟩
      rcases List.pairwise_cons.mp h2 with ⟨hy2, hys⟩
      have hxy : x = y := by
        rcases List.mem_cons.mp ((hm x).mp (by simp)) with h | h
        · exact h
        · rcases List.mem_cons.mp ((hm y).mpr (by simp)) with h' | h'
          · exact h'.symm
          · have hlt1 := hy2 x h
            have hlt2 := hx1 y h'
            have := strLt_asymm x y hlt2
            rw [this] at hlt1
            exact absurd hlt1 Bool.false_ne_true
      subst hxy
      have htails : ∀ z, z ∈ xs ↔ z ∈ ys := by
        intro z
        constructor
        · intro hz
          rcases List.mem_cons.mp ((hm z).mp (by simp [hz])) with h | h
          · subst h
            exact absurd (hx1 z hz) (by simp [strLt_irrefl])
          · exact h
        · intro hz
          rcases List.mem_cons.mp ((hm z).mpr (by simp [hz])) with h | h
          · subst h
            exact absurd (hy2 z hz) (by simp [strLt_irrefl])
          · exact h
      rw [ih ys hxs hys htails]

theorem pySet_of_ssorted (l : List Str) (h : SSorted l) : pySet l = l :=
  ssorted_unique (pySet l) l (ssorted_pySet l) h (fun x => mem_pySet x l)

theorem mem_sunion (x : Str) (a b : List Str) :
    x ∈ sunion a b ↔ x ∈ a ∨ x ∈ b := by
  rw [sunion, mem_pySet, List.mem_append]

theorem ssorted_sunion (a b : List Str) : SSorted (sunion a b) :=
  ssorted_pySet (a ++ b)

/-- No occurrence of the separator `"; "` inside the string: no adjacent
pair (59, 32). -/
def sepFree : Str → Bool
  | [] => true
  | [_] => true
  | c :: d :: cs => !(c = 59 && d = 32) && sepFree (d :: cs)

/-- Forward-recursive reformulation of `splitSemi`, easier to reason about. -/
def splitAlt : Str → List Str
  | [] => [[]]
  | [c] => [[c]]
  | c :: d :: rest =>
    if c = 59 ∧ d = 32 then [] :: splitAlt rest
    else
      match splitAlt (d :: rest) with
      | [] => [[c]]
      | p :: ps => (c :: p) :: ps

theorem splitSemiAux_eq_splitAlt :
    ∀ (s : Str) (acc : Str), ∃ p ps, splitAlt s = p :: ps ∧
      splitSemiAux acc s = (acc.reverse ++ p) :: ps := by
  have key : ∀ (n : Nat) (s : Str), s.length = n → ∀ acc : Str,
      ∃ p ps, splitAlt s = p :: ps ∧
        splitSemiAux acc s = (acc.reverse ++ p) :: ps := by
    intro n
    induction n using Nat.strong_induction_on with
    | _ n IH =>
      intro s hs acc
      match s with
      | [] => exact ⟨[], [], rfl, by simp [splitSemiAux]⟩
      | [c] => exact ⟨[c], [], rfl, by simp [splitSemiAux]⟩
      | c :: d :: rest =>
        by_cases hsep : c = 59 ∧ d = 32
        · obtain ⟨p, ps, h1, h2⟩ := IH rest.length (by simp at hs; omega) rest rfl []
          refine ⟨[], splitAlt rest, ?_, ?_⟩
          · rw [splitAlt, if_pos hsep]
          · rw [splitSemiAux, if_pos hsep]
            rw [h2, h1]
            simp
        · obtain ⟨p, ps, h1, h2⟩ :=
            IH (d :: rest).length (by simp at hs ⊢; omega) (d :: rest) rfl (c :: acc)
          refine ⟨c :: p, ps, ?_, ?_⟩
          · rw [splitAlt, if_neg hsep, h1]
          · rw [splitSemiAux, if_neg hsep, h2]
            simp
  intro s acc
  exact key s.length s rfl acc

theorem splitSemi_eq_splitAlt (s : Str) : splitSemi s = splitAlt s := by
  obtain ⟨p, ps, h1, h2⟩ := splitSemiAux_eq_splitAlt s []
  rw [splitSemi, h2, h1]
  simp

theorem splitAlt_head_shape (d : Nat) (rest : Str) :
    ∃ p ps, splitAlt (d :: rest) = p :: ps ∧ (p = [] ∨ ∃ q, p = d :: q) := by
  obtain ⟨p, ps, h1, _⟩ := splitSemiAux_eq_splitAlt (d :: rest) []
  match rest with
  | [] =>
    rw [splitAlt] at h1 ⊢
    exact ⟨[d], [], rfl, Or.inr ⟨[], rfl⟩⟩
  | e :: rest2 =>
    by_cases hsep : d = 59 ∧ e = 32
    · rw [splitAlt, if_pos hsep]
      exact ⟨[], splitAlt rest2, rfl, Or.inl rfl⟩
    · rw [splitAlt, if_neg hsep]
      obtain ⟨q, qs, h2, _⟩ := splitSemiAux_eq_splitAlt (e :: rest2) []
      rw [h2]
      exact ⟨d :: q, qs, rfl, Or.inr ⟨q, rfl⟩⟩

theorem splitAlt_sepFree (s : Str) :
    ∀ x ∈ splitAlt s, sepFree x = true := by
  have key : ∀ (n : Nat) (s : Str), s.length = n →
      ∀ x ∈ splitAlt s, sepFree x = true := by
    intro n
    induction n using Nat.strong_induction_on with
    | _ n IH =>
      intro s hs x hx
      match s with
      | [] =>
        rw [splitAlt] at hx
        simp at hx
        simp [hx, sepFree]
      | [c] =>
        rw [splitAlt] at hx
        simp at hx
        simp [hx, sepFree]
      | c :: d :: rest =>
        by_cases hsep : c = 59 ∧ d = 32
        · rw [splitAlt, if_pos hsep] at hx
          rcases List.mem_cons.mp hx with hx | hx
          · simp [hx, sepFree]
          · exact IH rest.length (by simp at hs; omega) rest rfl x hx
        · rw [splitAlt, if_neg hsep] at hx
          obtain ⟨p, ps, h1, hshape⟩ := splitAlt_head_shape d rest
          rw [h1] at hx
          have hlen : (d :: rest).length < n := by simp at hs ⊢; omega
          rcases List.mem_cons.mp hx with hx | hx
          · subst hx
            have hp : sepFree p = true :=
              IH (d :: rest).length hlen (d :: rest) rfl p (by rw [h1]; simp)
            rcases hshape with hp0 | ⟨q, hq⟩
            · simp [hp0, sepFree]
            · subst hq
              rw [sepFree]
              simp only [Bool.and_eq_true, Bool.not_eq_true']
              refine ⟨?_, hp⟩
              simp only [Bool.and_eq_false_iff]
              by_cases hc : c = 59
              · refine Or.inr ?_
                simp only [decide_eq_false_iff_not]
                intro hd
                exact hsep ⟨hc, hd⟩
              · exact Or.inl (by simp [hc])
          · exact IH (d :: rest).length hlen (d :: rest) rfl x (by rw [h1]; simp [hx])
  exact key s.length s rfl

theorem splitSemi_sepFree (s : Str) :
    ∀ x ∈ splitSemi s, sepFree x = true := by
  rw [splitSemi_eq_splitAlt]
  exact splitAlt_sepFree s

theorem splitAlt_of_sepFree (x : Str) (h : sepFree x = true) :
    splitAlt x = [x] := by
  have key : ∀ (n : Nat) (x : Str), x.length = n → sepFree x = true →
      splitAlt x = [x] := by
    intro n
    induction n using Nat.strong_induction_on with
    | _ n IH =>
      intro x hx h
      match x with
      | [] => rfl
      | [c] => rfl
      | c :: d :: x2 =>
        rw [sepFree] at h
        simp only [Bool.and_eq_true, Bool.not_eq_true'] at h
        have hsep : ¬(c = 59 ∧ d = 32) := by
          intro ⟨h1, h2⟩
          subst h1; subst h2
          simp at h
        rw [splitAlt, if_neg hsep,
          IH (d :: x2).length (by simp at hx ⊢; omega) (d :: x2) rfl h.2]
  exact key x.length x rfl h

theorem splitAlt_append_sep (x : Str) (t : Str) (h : sepFree x = true) :
    splitAlt (x ++ 59 :: 32 :: t) = x :: splitAlt t := by
  have key : ∀ (n : Nat) (x : Str), x.length = n → sepFree x = true →
      splitAlt (x ++ 59 :: 32 :: t) = x :: splitAlt t := by
    intro n
    induction n using Nat.strong_induction_on with
    | _ n IH =>
      intro x hx h
      match x with
      | [] => simp [splitAlt]
      | [c] =>
        have hne : ¬(c = 59 ∧ (59 : Nat) = 32) := by omega
        simp only [List.cons_append, List.nil_append]
        rw [splitAlt, if_neg hne]
        rw [show splitAlt (59 :: 32 :: t) = [] :: splitAlt t by
          rw [splitAlt, if_pos ⟨rfl, rfl⟩]]
      | c :: d :: x2 =>
        rw [sepFree] at h
        simp only [Bool.and_eq_true, Bool.not_eq_true'] at h
        have hsep : ¬(c = 59 ∧ d = 32) := by
          intro ⟨h1, h2⟩
          subst h1; subst h2
          simp at h
        simp only [List.cons_append]
        rw [splitAlt, if_neg hsep]
        have := IH (d :: x2).length (by simp at hx ⊢; omega) (d :: x2) rfl h.2
        simp only [List.cons_append] at this
        rw [this]
  exact key x.length x rfl h

theorem splitSemi_joinSemi (E : List Str) (hne : E ≠ [])
    (h : ∀ x ∈ E, sepFree x = true) : splitSemi (joinSemi E) = E := by
  induction E with
  | nil => exact absurd rfl hne
  | cons x V ih =>
    cases V with
    | nil =>
      rw [joinSemi, splitSemi_eq_splitAlt, splitAlt_of_sepFree x (h x (by simp))]
    | cons y W =>
      rw [joinSemi, splitSemi_eq_splitAlt,
        splitAlt_append_sep x (joinSemi (y :: W)) (h x (by simp)),
        ← splitSemi_eq_splitAlt, ih (by simp) (fun z hz => h z (by simp [hz]))]

theorem joinSemi_eq_nil_iff (E : List Str) :
    joinSemi E = [] ↔ E = [] ∨ E = [[]] := by
  match E with
  | [] => simp [joinSemi]
  | [x] =>
    rw [joinSemi]
    constructor
    · intro h; subst h; exact Or.inr rfl
    · rintro (h | h)
      · simp at h
      · simp at h; simp [h]
  | x :: y :: r =>
    rw [joinSemi]
    constructor
    · intro h
      exact absurd h (by simp)
    · rintro (h | h) <;> simp at h

theorem getLast?_mem_of (l : List Str) (a : Str) (h : l.getLast? = some a) :
    a ∈ l := by
  have hx : a ∈ l.getLast? := by rw [h]; rfl
  obtain ⟨hne, he⟩ := List.mem_getLast?_eq_getLast hx
  rw [he]
  exact List.getLast_mem hne

theorem classRep_mem (V : List Str) (k r : Str) (h : classRep V k = some r) :
    r ∈ V ∧ pyLower r = k := by
  have hm := getLast?_mem_of _ r h
  rw [List.mem_filter] at hm
  exact ⟨hm.1, by simpa using hm.2⟩

theorem classRep_eq_none_iff (V : List Str) (k : Str) :
    classRep V k = none ↔ ∀ v ∈ V, pyLower v ≠ k := by
  rw [classRep, List.getLast?_eq_none_iff, List.filter_eq_nil_iff]
  simp

theorem classRep_isSome_of_mem (V : List Str) (v : Str) (h : v ∈ V) :
    classRep V (pyLower v) ≠ none := by
  intro hn
  exact (classRep_eq_none_iff V (pyLower v)).mp hn v h rfl

theorem getLast?_sorted_max (l : List Str) (h : SSorted l) (m : Str)
    (hm : l.getLast? = some m) :
    ∀ x ∈ l, x = m ∨ strLt x m = true := by
  induction l with
  | nil => simp
  | cons c cs ih =>
    rcases List.pairwise_cons.mp h with ⟨hc, hcs⟩
    intro x hx
    cases hcs2 : cs with
    | nil =>
      subst hcs2
      simp at hm hx
      subst hm; subst hx
      exact Or.inl rfl
    | cons d ds =>
      subst hcs2
      rw [List.getLast?_cons_cons] at hm
      rcases List.mem_cons.mp hx with hx | hx
      · subst hx
        have hmm : m ∈ d :: ds := getLast?_mem_of _ m hm
        exact Or.inr (hc m hmm)
      · exact ih hcs hm x hx

theorem classRep_max (V : List Str) (hV : SSorted V) (k r : Str)
    (h : classRep V k = some r) :
    ∀ u ∈ V, pyLower u = k → u = r ∨ strLt u r = true := by
  intro u hu huk
  have hs : SSorted (V.filter (fun v => pyLower v = k)) :=
    hV.sublist (List.filter_sublist V)
  exact getLast?_sorted_max _ hs r h u (List.mem_filter.mpr ⟨hu, by simpa using huk⟩)

theorem classRep_eq_some_of (V : List Str) (hV : SSorted V) (k r : Str)
    (hr : r ∈ V) (hk : pyLower r = k)
    (hmax : ∀ u ∈ V, pyLower u = k → u = r ∨ strLt u r = true) :
    classRep V k = some r := by
  cases hc : classRep V k with
  | none => exact absurd (hk ▸ hc) (classRep_isSome_of_mem V r hr)
  | some m =>
    obtain ⟨hmV, hmk⟩ := classRep_mem V k m hc
    rcases hmax m hmV hmk with he | hlt
    · rw [he]
    · rcases classRep_max V hV k m hc r hr hk with he | hlt2
      · rw [he]
      · rw [strLt_asymm r m hlt2] at hlt
        exact absurd hlt Bool.false_ne_true

theorem mem_sjPieces (V : List Str) (x : Str) :
    x ∈ sjPieces V ↔ classRep V (pyLower x) = some x := by
  constructor
  · intro hx
    rcases List.mem_append.mp hx with hx | hx
    · obtain ⟨c, _, hc⟩ := List.mem_filterMap.mp hx
      obtain ⟨_, hlow⟩ := classRep_mem V (pyLower c) x hc
      rw [hlow]
      exact hc
    · rw [mem_pySet, List.mem_filter] at hx
      have := hx.2
      simp only [Bool.and_eq_true, decide_eq_true_eq, beq_iff_eq] at this
      exact this.2
  · intro h
    by_cases hx : pyLower x ∈ canonLowers
    · obtain ⟨c, hc, hpc⟩ := List.mem_map.mp hx
      refine List.mem_append.mpr (Or.inl (List.mem_filterMap.mpr ⟨c, hc, ?_⟩))
      rw [hpc]
      exact h
    · refine List.mem_append.mpr (Or.inr ?_)
      rw [mem_pySet, List.mem_filter]
      refine ⟨(classRep_mem V (pyLower x) x h).1, ?_⟩
      simp only [Bool.and_eq_true, decide_eq_true_eq, beq_iff_eq]
      exact ⟨hx, h⟩

theorem sjPieces_subset (V : List Str) (x : Str) (hx : x ∈ sjPieces V) :
    x ∈ V :=
  (classRep_mem V (pyLower x) x ((mem_sjPieces V x).mp hx)).1

theorem sjPieces_ne_nil (V : List Str) (hV : V ≠ []) : sjPieces V ≠ [] := by
  obtain ⟨v, vs, rfl⟩ := List.exists_cons_of_ne_nil hV
  have h1 : classRep (v :: vs) (pyLower v) ≠ none :=
    classRep_isSome_of_mem _ v (by simp)
  cases hc : classRep (v :: vs) (pyLower v) with
  | none => exact absurd hc h1
  | some r =>
    have hlow : pyLower r = pyLower v := (classRep_mem _ _ r hc).2
    have : r ∈ sjPieces (v :: vs) := by
      rw [mem_sjPieces, hlow]
      exact hc
    intro hnil
    rw [hnil] at this
    simp at this

theorem classRep_nil (k : Str) : classRep [] k = none := rfl

theorem eq_nil_of_classRep_none (V : List Str)
    (h : ∀ k, classRep V k = none) : V = [] := by
  cases hv : V with
  | nil => rfl
  | cons v vs =>
    exfalso
    exact classRep_isSome_of_mem (v :: vs) v (by simp) (hv ▸ h (pyLower v))

theorem set_join_congr (V1 V2 : List Str)
    (h : ∀ k, classRep V1 k = classRep V2 k) : set_join V1 = set_join V2 := by
  have hpieces : sjPieces V1 = sjPieces V2 := by
    unfold sjPieces
    congr 1
    · exact List.filterMap_congr (fun c _ => h (pyLower c))
    · apply ssorted_unique _ _ (ssorted_pySet _) (ssorted_pySet _)
      intro x
      rw [mem_pySet, mem_pySet, List.mem_filter, List.mem_filter]
      simp only [Bool.and_eq_true, decide_eq_true_eq, beq_iff_eq]
      constructor
      · rintro ⟨_, hnc, hcr⟩
        rw [h] at hcr
        exact ⟨(classRep_mem V2 _ x hcr).1, hnc, hcr⟩
      · rintro ⟨_, hnc, hcr⟩
        rw [← h] at hcr
        exact ⟨(classRep_mem V1 _ x hcr).1, hnc, hcr⟩
  by_cases h1 : V1 = []
  · subst h1
    have h2 : V2 = [] := eq_nil_of_classRep_none V2 (fun k => (h k).symm)
    rw [h2]
  · have h2 : V2 ≠ [] := by
      intro h2
      subst h2
      exact h1 (eq_nil_of_classRep_none V1 h)
    rw [set_join, set_join, if_neg h1, if_neg h2, hpieces]

theorem splitField_ssorted (s : Str) : SSorted (splitField s) := by
  unfold splitField
  split_ifs
  · exact List.Pairwise.nil
  · exact ssorted_pySet _

theorem splitField_sepFree (s : Str) :
    ∀ x ∈ splitField s, sepFree x = true := by
  unfold splitField
  split_ifs
  · simp
  · intro x hx
    exact splitSemi_sepFree s x ((mem_pySet x _).mp hx)

theorem pyLower_length (s : Str) : (pyLower s).length = s.length :=
  List.length_map s pyLowerChar

theorem eq_nil_of_pyLower_nil (s : Str) (h : pyLower s = []) : s = [] := by
  have := pyLower_length s
  rw [h] at this
  exact List.eq_nil_of_length_eq_zero this.symm

theorem ssorted_all_nil (l : List Str) (hs : SSorted l) (hne : l ≠ [])
    (h : ∀ x ∈ l, x = []) : l = [[]] := by
  obtain ⟨v, vs, rfl⟩ := List.exists_cons_of_ne_nil hne
  have hv : v = [] := h v (by simp)
  subst hv
  cases vs with
  | nil => rfl
  | cons w ws =>
    have hw : w = [] := h w (by simp)
    subst hw
    rcases List.pairwise_cons.mp hs with ⟨h1, _⟩
    have := h1 [] (by simp)
    rw [strLt_irrefl] at this
    exact absurd this Bool.false_ne_true

theorem set_join_nil : set_join [] = [] := rfl

theorem set_join_nil_elem : set_join [[]] = [] := by decide

theorem sjPieces_ne_nil_elem (U : List Str) (hU : SSorted U) (hne : U ≠ [])
    (hne1 : U ≠ [[]]) : sjPieces U ≠ [[]] := by
  intro hp
  apply hne1
  apply ssorted_all_nil U hU hne
  intro u hu
  have h1 : classRep U (pyLower u) ≠ none := classRep_isSome_of_mem U u hu
  cases hc : classRep U (pyLower u) with
  | none => exact absurd hc h1
  | some r =>
    have hr : r ∈ sjPieces U := by
      rw [mem_sjPieces, (classRep_mem U _ r hc).2]
      exact hc
    rw [hp] at hr
    simp at hr
    have hlow : pyLower r = pyLower u := (classRep_mem U _ r hc).2
    rw [hr] at hlow
    exact eq_nil_of_pyLower_nil u hlow.symm

theorem splitField_set_join (U : List Str) (hU : SSorted U)
    (hsep : ∀ x ∈ U, sepFree x = true) (hne : U ≠ []) (hne1 : U ≠ [[]]) :
    splitField (set_join U) = pySet (sjPieces U) := by
  rw [set_join, if_neg hne]
  have hp1 : sjPieces U ≠ [] := sjPieces_ne_nil U hne
  have hp2 : sjPieces U ≠ [[]] := sjPieces_ne_nil_elem U hU hne hne1
  have hjoin : joinSemi (sjPieces U) ≠ [] := by
    intro h
    rcases (joinSemi_eq_nil_iff _).mp h with h | h
    · exact hp1 h
    · exact hp2 h
  rw [splitField, if_neg hjoin,
    splitSemi_joinSemi _ hp1 (fun x hx => hsep x (sjPieces_subset U x hx))]

theorem classRep_sunion_stable (Sa Sb : List Str)
    (U : List Str) (hU : U = sunion Sa Sb) (k : Str) :
    classRep (sunion (pySet (sjPieces U)) Sb) k = classRep U k := by
  have hUs : SSorted U := hU ▸ ssorted_sunion Sa Sb
  have hsub : ∀ v, v ∈ sunion (pySet (sjPieces U)) Sb → v ∈ U := by
    intro v hv
    rcases (mem_sunion v _ _).mp hv with hv | hv
    · exact sjPieces_subset U v ((mem_pySet v _).mp hv)
    · rw [hU, mem_sunion]
      exact Or.inr hv
  cases hc : classRep U k with
  | none =>
    rw [classRep_eq_none_iff] at hc ⊢
    exact fun v hv => hc v (hsub v hv)
  | some r =>
    have hrk := (classRep_mem U k r hc).2
    apply classRep_eq_some_of _ (ssorted_sunion _ _) k r
    · rw [mem_sunion]
      refine Or.inl ?_
      rw [mem_pySet, mem_sjPieces, hrk]
      exact hc
    · exact hrk
    · intro u hu huk
      exact classRep_max U hUs k r hc u (hsub u hu) huk

theorem merge_set_stable (sa sb : Str) :
    set_join (sunion
        (splitField (set_join (sunion (splitField sa) (splitField sb))))
        (splitField sb)) =
      set_join (sunion (splitField sa) (splitField sb)) := by
  set Sa := splitField sa with hSa
  set Sb := splitField sb with hSb
  set U := sunion Sa Sb with hU
  have hUs : SSorted U := ssorted_sunion Sa Sb
  have hsep : ∀ x ∈ U, sepFree x = true := by
    intro x hx
    rcases (mem_sunion x _ _).mp hx with hx | hx
    · exact splitField_sepFree sa x hx
    · exact splitField_sepFree sb x hx
  by_cases hne : U = []
  · have hSbe : Sb = [] := by
      rw [List.eq_nil_iff_forall_not_mem]
      intro v hv
      have : v ∈ U := (mem_sunion v Sa Sb).mpr (Or.inr hv)
      rw [hne] at this
      simp at this
    rw [hne, set_join_nil]
    rw [splitField, if_pos rfl, hSbe]
    rfl
  · by_cases hne1 : U = [[]]
    · have hsj : set_join U = [] := by rw [hne1]; exact set_join_nil_elem
      rw [hsj]
      rw [splitField, if_pos rfl]
      have hsub : ∀ v ∈ Sb, v = [] := by
        intro v hv
        have : v ∈ U := (mem_sunion v Sa Sb).mpr (Or.inr hv)
        rw [hne1] at this
        simpa using this
      have hSbs : SSorted Sb := splitField_ssorted sb
      by_cases hSbe : Sb = []
      · rw [hSbe]
        simp only [sunion, List.nil_append]
        rw [show pySet ([] : List Str) = [] from rfl, set_join_nil]
      · have : Sb = [[]] := ssorted_all_nil Sb hSbs hSbe hsub
        rw [this]
        have : sunion [] [[]] = [[]] := by decide
        rw [this, set_join_nil_elem]
    · rw [splitField_set_join U hUs hsep hne hne1]
      apply set_join_congr
      exact fun k => classRep_sunion_stable Sa Sb U rfl k

theorem pyOr_or_self (x y : Str) : pyOr (pyOr x y) y = pyOr x y := by
  by_cases hx : x = []
  · subst hx
    simp [pyOr]
  · simp [pyOr, hx]

/-- Claim C6: the global merge of `scrape_all` is idempotent over attribute
content: for every pair of rows with the same normalized name,
`merge (merge a b) b = merge a b` — the split season/weather sets are
unioned again without change and the first-seen scalar fields survive. -/
theorem C6_merge_idempotent (a b : ItemRow)
    (_hname : pyLower a.name = pyLower b.name) :
    mergeRow_all (mergeRow_all a b) b = mergeRow_all a b := by
  have h1 := pyOr_or_self a.image b.image
  have h2 := merge_set_stable a.seasons b.seasons
  have h3 := merge_set_stable a.weather b.weather
  simp [mergeRow_all, h1, h2, h3]

/-- Witness for C6 at a concrete pair of rows. -/
theorem C6_merge_idempotent_witness :
    mergeRow_all
        (mergeRow_all
          ⟨strOf ("i.png"), strOf ("Apple"), strOf ("Spring"), [],
            strOf ("p"), strOf ("crops")⟩
          ⟨[], strOf ("APPLE"), strOf ("Winter"), strOf ("Rainy"),
            strOf ("q"), []⟩)
        ⟨[], strOf ("APPLE"), strOf ("Winter"), strOf ("Rainy"),
          strOf ("q"), []⟩ =
      mergeRow_all
        ⟨strOf ("i.png"), strOf ("Apple"), strOf ("Spring"), [],
          strOf ("p"), strOf ("crops")⟩
        ⟨[], strOf ("APPLE"), strOf ("Winter"), strOf ("Rainy"),
          strOf ("q"), []⟩ :=
  C6_merge_idempotent _ _ (by decide)

/-- Case-collision freedom: no two distinct elements share a lowercase form. -/
def lcInj (l : List Str) : Prop :=
  ∀ x ∈ l, ∀ y ∈ l, pyLower x = pyLower y → x = y

instance (l : List Str) : Decidable (lcInj l) := by
  unfold lcInj
  infer_instance

theorem splitField_set_join_of_lcInj (U : List Str) (hU : SSorted U)
    (hsep : ∀ x ∈ U, sepFree x = true) (hinj : lcInj U) (hne1 : U ≠ [[]]) :
    splitField (set_join U) = U := by
  by_cases hne : U = []
  · subst hne
    rfl
  · rw [splitField_set_join U hU hsep hne hne1]
    apply ssorted_unique _ _ (ssorted_pySet _) hU
    intro x
    rw [mem_pySet, mem_sjPieces]
    constructor
    · intro h
      exact (classRep_mem U _ x h).1
    · intro h
      cases hc : classRep U (pyLower x) with
      | none => exact absurd hc (classRep_isSome_of_mem U x h)
      | some r =>
        obtain ⟨hrU, hrk⟩ := classRep_mem U _ r hc
        rw [hinj r hrU x h hrk]

theorem mergeRow_all_name (p r : ItemRow) : (mergeRow_all p r).name = p.name := rfl

theorem mergeRow_fandom_name (p r : ItemRow) :
    (mergeRow_fandom p r).name = p.name := rfl

theorem mergeRow_ptbr_name (p r : ItemRow) :
    (mergeRow_ptbr p r).name = p.name := rfl

theorem sunion_splitField_sepFree (x y : Str) :
    ∀ v ∈ sunion (splitField x) (splitField y), sepFree v = true := by
  intro v hv
  rcases (mem_sunion v _ _).mp hv with hv | hv
  · exact splitField_sepFree _ v hv
  · exact splitField_sepFree _ v hv

theorem splitField_merge_sets (x y : Str)
    (h1 : lcInj (sunion (splitField x) (splitField y)))
    (h2 : sunion (splitField x) (splitField y) ≠ [[]]) :
    splitField (set_join (sunion (splitField x) (splitField y)))
      = sunion (splitField x) (splitField y) :=
  splitField_set_join_of_lcInj _ (ssorted_sunion _ _)
    (sunion_splitField_sepFree x y) h1 h2

/-- Claim C3 (amended): the field equations of the three global merges.  In
`scrape_ptbr` all six fields behave as the claim says; in `scrape_all` (and
`scrape_fandom`) the merged row's `category` is always the dataclass default
`""` because the constructor call omits it, and the other five fields behave
as claimed.  The season/weather hypotheses rule out two labels that differ
only by case and the degenerate set containing only the empty label. -/
theorem C3_merge_fields (a b : ItemRow)
    (hs1 : lcInj (sunion (splitField a.seasons) (splitField b.seasons)))
    (hs2 : sunion (splitField a.seasons) (splitField b.seasons) ≠ [[]])
    (hw1 : lcInj (sunion (splitField a.weather) (splitField b.weather)))
    (hw2 : sunion (splitField a.weather) (splitField b.weather) ≠ [[]]) :
    splitField (mergeRow_ptbr a b).seasons
        = sunion (splitField a.seasons) (splitField b.seasons) ∧
    splitField (mergeRow_ptbr a b).weather
        = sunion (splitField a.weather) (splitField b.weather) ∧
    (mergeRow_ptbr a b).image = pyOr a.image b.image ∧
    (mergeRow_ptbr a b).source_page = a.source_page ∧
    (mergeRow_ptbr a b).category = pyOr a.category b.category ∧
    (mergeRow_ptbr a b).name = a.name ∧
    splitField (mergeRow_all a b).seasons
        = sunion (splitField a.seasons) (splitField b.seasons) ∧
    splitField (mergeRow_all a b).weather
        = sunion (splitField a.weather) (splitField b.weather) ∧
    (mergeRow_all a b).image = pyOr a.image b.image ∧
    (mergeRow_all a b).source_page = a.source_page ∧
    (mergeRow_all a b).name = a.name ∧
    (mergeRow_all a b).category = [] ∧
    mergeRow_fandom a b = mergeRow_all a b := by
  exact ⟨splitField_merge_sets a.seasons b.seasons hs1 hs2,
    splitField_merge_sets a.weather b.weather hw1 hw2,
    rfl, rfl, rfl, rfl,
    splitField_merge_sets a.seasons b.seasons hs1 hs2,
    splitField_merge_sets a.weather b.weather hw1 hw2,
    rfl, rfl, rfl, rfl, rfl⟩

/-- Witness for C3's amended statement at concrete rows. -/
theorem C3_merge_fields_witness :
    splitField (mergeRow_ptbr
        ⟨strOf ("i"), strOf ("Apple"), strOf ("Spring"), strOf ("Rainy"),
          strOf ("p"), strOf ("crops")⟩
        ⟨[], strOf ("APPLE"), strOf ("Winter"), [], strOf ("q"), []⟩).seasons
      = sunion
          (splitField (strOf ("Spring")))
          (splitField (strOf ("Winter"))) :=
  (C3_merge_fields
    ⟨strOf ("i"), strOf ("Apple"), strOf ("Spring"), strOf ("Rainy"),
      strOf ("p"), strOf ("crops")⟩
    ⟨[], strOf ("APPLE"), strOf ("Winter"), [], strOf ("q"), []⟩
    (by decide) (by decide) (by decide) (by decide)).1

/-- Counterexample to claim C3 as stated: in `scrape_all`'s merge the claim
demands `category = a.category if non-empty else b.category`, but the code
builds the merged `ItemRow` without a `category` argument, so the merged
category is the default `""` even though `a.category = "crops"` is
non-empty. -/
theorem C3_category_counterexample :
    ¬ ((mergeRow_all
          ⟨[], strOf ("Apple"), [], [], strOf ("p"), strOf ("crops")⟩
          ⟨[], strOf ("apple"), [], [], strOf ("q"), strOf ("fish")⟩).category
        = pyOr (strOf ("crops")) (strOf ("fish"))) := by
  decide

theorem byNameStep_fst (m : ItemRow → ItemRow → ItemRow)
    (acc : List (Str × ItemRow)) (k : Str) (r : ItemRow) :
    (byNameStep m acc k r).map Prod.fst =
      if k ∈ acc.map Prod.fst then acc.map Prod.fst
      else acc.map Prod.fst ++ [k] := by
  induction acc with
  | nil => simp [byNameStep]
  | cons x rest ih =>
    obtain ⟨k0, p⟩ := x
    by_cases hk : k0 = k
    · subst hk
      simp [byNameStep]
    · simp only [byNameStep, if_neg hk, List.map_cons]
      rw [ih]
      by_cases hmem : k ∈ rest.map Prod.fst
      · rw [if_pos hmem, if_pos (by simp [hmem])]
      · rw [if_neg hmem, if_neg (by simp [hmem, Ne.symm hk]), List.cons_append]

theorem byNameStep_names (m : ItemRow → ItemRow → ItemRow)
    (hm : ∀ p r, (m p r).name = p.name)
    (acc : List (Str × ItemRow)) (k : Str) (r : ItemRow)
    (hacc : ∀ x ∈ acc, pyLower x.2.name = x.1) (hkr : pyLower r.name = k) :
    ∀ x ∈ byNameStep m acc k r, pyLower x.2.name = x.1 := by
  induction acc with
  | nil =>
    intro x hx
    simp [byNameStep] at hx
    simp [hx, hkr]
  | cons y rest ih =>
    obtain ⟨k0, p⟩ := y
    intro x hx
    by_cases hk : k0 = k
    · subst hk
      simp only [byNameStep, if_pos rfl] at hx
      rcases List.mem_cons.mp hx with hx | hx
      · subst hx
        simp only [hm]
        exact hacc (k0, p) (by simp)
      · exact hacc x (by simp [hx])
    · simp only [byNameStep, if_neg hk] at hx
      rcases List.mem_cons.mp hx with hx | hx
      · subst hx
        exact hacc (k0, p) (by simp)
      · exact ih (fun z hz => hacc z (by simp [hz])) x hx

theorem byNameFold_good (m : ItemRow → ItemRow → ItemRow)
    (hm : ∀ p r, (m p r).name = p.name) (rows : List ItemRow) :
    ((byNameFold m rows).map Prod.fst).Nodup ∧
      ∀ x ∈ byNameFold m rows, pyLower x.2.name = x.1 := by
  have key : ∀ (rows : List ItemRow) (acc : List (Str × ItemRow)),
      (acc.map Prod.fst).Nodup → (∀ x ∈ acc, pyLower x.2.name = x.1) →
      ((rows.foldl (fun a r => byNameStep m a (pyLower r.name) r) acc).map
          Prod.fst).Nodup ∧
        ∀ x ∈ rows.foldl (fun a r => byNameStep m a (pyLower r.name) r) acc,
          pyLower x.2.name = x.1 := by
    intro rows
    induction rows with
    | nil => intro acc h1 h2; exact ⟨h1, h2⟩
    | cons r rs ih =>
      intro acc h1 h2
      simp only [List.foldl_cons]
      apply ih
      · rw [byNameStep_fst]
        split_ifs with hmem
        · exact h1
        · simp only [List.nodup_append, List.nodup_cons]
          simp [h1, hmem]
      · exact byNameStep_names m hm acc (pyLower r.name) r h2 rfl
  exact key rows [] (by simp) (by simp)

theorem dedupByName_nodup_names (m : ItemRow → ItemRow → ItemRow)
    (hm : ∀ p r, (m p r).name = p.name) (rows : List ItemRow) :
    ((dedupByName m rows).map (fun r => pyLower r.name)).Nodup := by
  obtain ⟨h1, h2⟩ := byNameFold_good m hm rows
  rw [dedupByName, List.map_map]
  have : (byNameFold m rows).map ((fun r => pyLower r.name) ∘ Prod.snd) =
      (byNameFold m rows).map Prod.fst :=
    List.map_congr_left (fun x hx => h2 x hx)
  rw [this]
  exact h1

theorem insStable_perm (x : ItemRow) (l : List ItemRow) :
    (insStable x l).Perm (x :: l) := by
  induction l with
  | nil => exact List.Perm.refl _
  | cons y ys ih =>
    rw [insStable]
    split_ifs
    · exact List.Perm.refl _
    · exact (ih.cons y).trans (List.Perm.swap x y ys)

theorem ptbrSort_perm (l : List ItemRow) : (ptbrSort l).Perm l := by
  have key : ∀ (l : List ItemRow) (acc : List ItemRow),
      (l.foldl (fun a x => insStable x a) acc).Perm (l ++ acc) := by
    intro l
    induction l with
    | nil => intro acc; simp
    | cons x xs ih =>
      intro acc
      simp only [List.foldl_cons]
      refine (ih (insStable x acc)).trans ?_
      refine (List.Perm.append_left xs (insStable_perm x acc)).trans ?_
      simp only [List.cons_append]
      exact List.perm_middle
  simpa using key l []

theorem dedupByName_two (m : ItemRow → ItemRow → ItemRow) (r1 r2 : ItemRow)
    (hk : pyLower r2.name = pyLower r1.name) :
    dedupByName m [r1, r2] = [m r1 r2] := by
  simp [dedupByName, byNameFold, byNameStep, hk]

theorem ptbrSort_single (x : ItemRow) : ptbrSort [x] = [x] := rfl

/-- Claim C1: every pipeline's global de-duplication leaves at most one row
per lowercased name, and when exactly two rows share a normalized name the
single output row carries the first row's casing and the union of both
rows' season and weather label sets.  (The label-set hypotheses rule out
labels differing only by case and the degenerate `{""}` set, where the
Python dict comprehension would drop a casing variant.) -/
theorem C1_global_dedup (rows : List ItemRow) (r1 r2 : ItemRow)
    (hk : pyLower r2.name = pyLower r1.name)
    (hs1 : lcInj (sunion (splitField r1.seasons) (splitField r2.seasons)))
    (hs2 : sunion (splitField r1.seasons) (splitField r2.seasons) ≠ [[]])
    (hw1 : lcInj (sunion (splitField r1.weather) (splitField r2.weather)))
    (hw2 : sunion (splitField r1.weather) (splitField r2.weather) ≠ [[]]) :
    ((scrape_all_dedup rows).map (fun r => pyLower r.name)).Nodup ∧
    ((scrape_fandom_dedup rows).map (fun r => pyLower r.name)).Nodup ∧
    ((scrape_ptbr_post rows).map (fun r => pyLower r.name)).Nodup ∧
    scrape_all_dedup [r1, r2] = [mergeRow_all r1 r2] ∧
    scrape_fandom_dedup [r1, r2] = [mergeRow_fandom r1 r2] ∧
    scrape_ptbr_post [r1, r2] = [mergeRow_ptbr r1 r2] ∧
    (mergeRow_all r1 r2).name = r1.name ∧
    splitField (mergeRow_all r1 r2).seasons
        = sunion (splitField r1.seasons) (splitField r2.seasons) ∧
    splitField (mergeRow_all r1 r2).weather
        = sunion (splitField r1.weather) (splitField r2.weather) := by
  refine ⟨dedupByName_nodup_names _ mergeRow_all_name rows,
    dedupByName_nodup_names _ mergeRow_fandom_name rows, ?_,
    dedupByName_two _ r1 r2 hk, dedupByName_two _ r1 r2 hk, ?_, rfl,
    splitField_merge_sets r1.seasons r2.seasons hs1 hs2,
    splitField_merge_sets r1.weather r2.weather hw1 hw2⟩
  · have hperm := (ptbrSort_perm (dedupByName mergeRow_ptbr rows)).map
      (fun r => pyLower r.name)
    exact (dedupByName_nodup_names _ mergeRow_ptbr_name rows).perm hperm.symm
  · rw [scrape_ptbr_post, dedupByName_two _ r1 r2 hk, ptbrSort_single]

/-- Witness for C1: two `Strawberry` rows of different casing. -/
theorem C1_global_dedup_witness :
    scrape_all_dedup
        [⟨strOf ("s.png"), strOf ("Strawberry"), strOf ("Spring"), [],
            strOf ("p"), []⟩,
          ⟨[], strOf ("STRAWBERRY"), strOf ("Summer"), strOf ("Rainy"),
            strOf ("q"), []⟩] =
      [mergeRow_all
        ⟨strOf ("s.png"), strOf ("Strawberry"), strOf ("Spring"), [],
          strOf ("p"), []⟩
        ⟨[], strOf ("STRAWBERRY"), strOf ("Summer"), strOf ("Rainy"),
          strOf ("q"), []⟩] :=
  (C1_global_dedup []
    ⟨strOf ("s.png"), strOf ("Strawberry"), strOf ("Spring"), [],
      strOf ("p"), []⟩
    ⟨[], strOf ("STRAWBERRY"), strOf ("Summer"), strOf ("Rainy"),
      strOf ("q"), []⟩
    (by decide) (by decide) (by decide) (by decide)
    (by decide)).2.2.2.1

/-- Claim C8: a fetch/parse error on the detail page (the `except` branch of
`parse_detail_page`, modelled as `none`) yields the pair of empty sets
instead of propagating. -/
theorem C8_detail_error_empty : parse_detail_page none = ([], []) := rfl

/-- Claim C9: `text_norm` collapses every whitespace run to a single space
and trims both ends (its output is exactly the whitespace-free runs of the
input joined by single spaces), and it is idempotent. -/
theorem C9_text_norm (s : Str) :
    text_norm s = joinSp (wordsOf s) ∧
      text_norm (text_norm s) = text_norm s :=
  ⟨text_norm_eq_joinSp_wordsOf s, text_norm_idem s⟩

/-- Claim C5: vocabulary matching through `find_by_labels` is
case-insensitive: normalized text and normalized upper-cased text match the
same labels, for every dictionary (in particular `SEASON_WORDS` and
`WEATHER_WORDS`). -/
theorem C5_case_insensitive (s : Str) (d : List Str) :
    find_by_labels (text_norm s) d = find_by_labels (text_norm (pyUpper s)) d :=
  find_by_labels_congr _ _ d (pyLower_pyUpper_text_norm s).symm

/-- The canonical weather labels of the data model. -/
def weatherLabels : List Str :=
  [strOf ("Sunny"), strOf ("Rainy"), strOf ("Stormy"), strOf ("Windy"),
   strOf ("Snowy"), strOf ("Cloudy")]

/-- Claim C10: `find_by_labels` only ever returns canonical labels: season
matches land in `{Spring, Summer, Fall, Winter, All Seasons, Year Round}`
(`canonList`), weather matches in `weatherLabels`, and both vocabulary
words `"fall"` and `"autumn"` map to the single canonical label `"Fall"`. -/
theorem C10_canonical_labels (s : Str) :
    (∀ x ∈ find_by_labels s SEASON_WORDS, x ∈ canonList) ∧
    (∀ x ∈ find_by_labels s WEATHER_WORDS, x ∈ weatherLabels) ∧
    canonLabel (strOf ("fall")) = strOf ("Fall") ∧
    canonLabel (strOf ("autumn")) = strOf ("Fall") := by
  have hseason : ∀ w ∈ SEASON_WORDS, canonLabel w ∈ canonList := by decide
  have hweather : ∀ w ∈ WEATHER_WORDS, canonLabel w ∈ weatherLabels := by decide
  refine ⟨?_, ?_, by decide, by decide⟩
  · intro x hx
    rw [find_by_labels, mem_pySet] at hx
    obtain ⟨w, hw, rfl⟩ := List.mem_map.mp hx
    exact hseason w (List.mem_of_mem_filter hw)
  · intro x hx
    rw [find_by_labels, mem_pySet] at hx
    obtain ⟨w, hw, rfl⟩ := List.mem_map.mp hx
    exact hweather w (List.mem_of_mem_filter hw)

/-- Witness for C10: the label matched in a text containing `autumn` is the
canonical `Fall`. -/
theorem C10_canonical_labels_witness : strOf ("Fall") ∈ canonList :=
  (C10_canonical_labels (strOf ("autumn"))).1 (strOf ("Fall")) (by decide)

/-- Claim C7: a fetcher failing on the first two attempts and succeeding on
the third makes `get_soup` (with `retries = 3`) return the successful
result after exactly two backoff sleeps, of `backoff * 1` and
`backoff * 2`. -/
theorem C7_get_soup_retry (fetcher : FetchAttempt) (backoff : ℚ)
    (e0 e1 v : Nat) (h0 : fetcher 0 = .error e0) (h1 : fetcher 1 = .error e1)
    (h2 : fetcher 2 = .ok v) :
    get_soup fetcher 3 backoff = (.ok v, [backoff * 1, backoff * 2]) := by
  have s2 : get_soupGo fetcher 3 backoff 2 (some e1) = (.ok v, []) := by
    rw [get_soupGo, if_pos (by norm_num), h2]
  have s1 : get_soupGo fetcher 3 backoff 1 (some e0) = (.ok v, [backoff * 2]) := by
    rw [get_soupGo, if_pos (by norm_num), h1]
    simp only [s2]
    norm_num
  rw [get_soup, get_soupGo, if_pos (by norm_num), h0]
  simp only [s1]
  norm_num

/-- Witness for C7 at a concrete fetcher and backoff. -/
theorem C7_get_soup_retry_witness :
    get_soup (fun i => if i < 2 then .error i else .ok 7) 3 (3 / 2) =
      (.ok 7, [3 / 2 * 1, 3 / 2 * 2]) :=
  C7_get_soup_retry (fun i => if i < 2 then .error i else .ok 7) (3 / 2)
    0 1 7 rfl rfl rfl

/-- Claim C2 (amended): the fulltext tier of `parse_detail_page` is entered
exactly when the seasons or the weather set accumulated by tiers 1-2 is
empty; when it is not entered the tiers-1-2 result is returned unchanged,
and when it is entered the stripped fulltext is matched against BOTH
vocabularies and unioned into BOTH sets — the fulltext tier is not
restricted to the attribute that was still missing. -/
theorem C2_fulltext_tier (page : DetailPage) :
    parse_detail_page (some page) =
      (if (tiers12 page).1 = [] ∨ (tiers12 page).2 = [] then
        (sunion (tiers12 page).1
            (find_by_labels (stripNoise page.fulltext) SEASON_WORDS),
          sunion (tiers12 page).2
            (find_by_labels (stripNoise page.fulltext) WEATHER_WORDS))
      else tiers12 page) := by
  rw [parse_detail_page, tiers12]

/-- Counterexample to claim C2 as stated: tiers 1-2 find `Spring` (so
seasons is non-empty and only weather is missing), yet the fulltext tier,
run because weather is empty, also matches the fulltext against the season
vocabulary and adds `Summer` to the already-found seasons, which the claim
forbids. -/
theorem C2_fulltext_counterexample :
    tiers12 ⟨[strOf ("Spring")], [], strOf ("summer")⟩
        = ([strOf ("Spring")], []) ∧
      parse_detail_page (some ⟨[strOf ("Spring")], [], strOf ("summer")⟩)
        = ([strOf ("Spring"), strOf ("Summer")], []) := by
  decide

/-- Modelled from the spec's words for the serialization order: canonical
season labels first, in the fixed order of `canonList`, then every
unrecognized label in alphabetical (codepoint) order, joined by `"; "`. -/
def set_join_spec (values : List Str) : Str :=
  joinSemi (canonList.filter (fun c => decide (c ∈ values)) ++
    pySet (values.filter (fun v => decide (v ∉ canonList))))

theorem canonList_lower_inj :
    ∀ u ∈ canonList, ∀ c ∈ canonList, pyLower u = pyLower c → u = c := by
  decide

theorem filterMap_if_mem (l : List Str) (P : Str → Prop) [DecidablePred P] :
    l.filterMap (fun c => if P c then some c else none) =
      l.filter (fun c => decide (P c)) := by
  induction l with
  | nil => rfl
  | cons c cs ih =>
    by_cases h : P c
    · rw [List.filterMap_cons, List.filter_cons]
      simp only [if_pos h, decide_eq_true h]
      rw [ih]
      simp
    · rw [List.filterMap_cons, List.filter_cons]
      simp only [if_neg h, decide_eq_false h]
      rw [ih]
      simp

/-- Claim C4: for a canonical set enumeration whose labels are either
exactly canonical season labels or case-distinct unknowns, `set_join`
serializes canonical labels first in the fixed order and the unknown
labels after them in alphabetical order (the spec-side `set_join_spec`);
together with the three concrete examples of the claim. -/
theorem C4_set_join_order (values : List Str) (hss : SSorted values)
    (hinj : lcInj values)
    (hcanon : ∀ v ∈ values, v ∈ canonList ∨ pyLower v ∉ canonLowers) :
    set_join values = set_join_spec values ∧
    set_join (pySet [strOf ("Winter"), strOf ("Spring")])
      = strOf ("Spring; Winter") ∧
    set_join (pySet [strOf ("Spring"), strOf ("Foo")])
      = strOf ("Spring; Foo") ∧
    set_join [] = [] := by
  refine ⟨?_, by decide, by decide, rfl⟩
  by_cases hne : values = []
  · subst hne
    rw [set_join_spec]
    simp [List.filter_eq_nil_iff]
    rfl
  · have hcr : ∀ c ∈ canonList, classRep values (pyLower c)
        = if c ∈ values then some c else none := by
      intro c hc
      by_cases hcv : c ∈ values
      · rw [if_pos hcv]
        apply classRep_eq_some_of values hss (pyLower c) c hcv rfl
        intro u hu huc
        rcases hcanon u hu with hu2 | hu2
        · exact Or.inl (canonList_lower_inj u hu2 c hc huc)
        · exact absurd (huc ▸ List.mem_map.mpr ⟨c, hc, rfl⟩) hu2
      · rw [if_neg hcv, classRep_eq_none_iff]
        intro v hv hvc
        rcases hcanon v hv with hv2 | hv2
        · exact hcv (canonList_lower_inj v hv2 c hc hvc ▸ hv)
        · exact hv2 (hvc ▸ List.mem_map.mpr ⟨c, hc, rfl⟩)
    have hordered : canonList.filterMap (fun c => classRep values (pyLower c))
        = canonList.filter (fun c => decide (c ∈ values)) := by
      rw [List.filterMap_congr (fun c hc => hcr c hc)]
      exact filterMap_if_mem canonList (· ∈ values)
    have hrest : values.filter (fun v =>
        decide (pyLower v ∉ canonLowers) &&
          (classRep values (pyLower v) == some v))
        = values.filter (fun v => decide (v ∉ canonList)) := by
      apply List.filter_congr
      intro v hv
      rcases hcanon v hv with hv2 | hv2
      · have h1 : pyLower v ∈ canonLowers := List.mem_map.mpr ⟨v, hv2, rfl⟩
        simp [h1, hv2]
      · have hcrv : classRep values (pyLower v) = some v := by
          apply classRep_eq_some_of values hss (pyLower v) v hv rfl
          intro u hu huv
          exact Or.inl (hinj u hu v hv huv)
        have h2 : v ∉ canonList := fun hvc =>
          hv2 (List.mem_map.mpr ⟨v, hvc, rfl⟩)
        simp [hv2, h2, hcrv]
    rw [set_join, if_neg hne, set_join_spec, sjPieces, hordered, hrest]

/-- Witness for C4 at a concrete three-label set. -/
theorem C4_set_join_order_witness :
    set_join (pySet [strOf ("Winter"), strOf ("Spring"), strOf ("Foo")]) =
      set_join_spec (pySet [strOf ("Winter"), strOf ("Spring"), strOf ("Foo")]) :=
  (C4_set_join_order (pySet [strOf ("Winter"), strOf ("Spring"), strOf ("Foo")])
    (ssorted_pySet _) (by decide) (by decide)).1
